import Mathlib

/-!
Verification of the crossword-generator CSP core (`generar.py`).

Words are lists of characters; Python's `palabra[i]` is modelled by
`List.getD i ' '` (every theorem that depends on a character read carries
the in-range facts that make the default irrelevant, exactly the situations
in which the source would not raise `IndexError`).  Python sets are
modelled as lists (their iteration order), dictionaries as association
lists or as functions updated with `Function.update`.
-/

/-- A candidate word: the list of its characters. -/
abbrev Palabra := List Char

/-- The two slot directions of the source's `Variable` class. -/
inductive Direccion where
  | abajo
  | derecha
deriving DecidableEq

/-- A word slot: start cell, length and direction, as in `crucigrama.py`'s
`Variable` (equality is componentwise, as specified). -/
structure Variable where
  i : Nat
  j : Nat
  longitud : Nat
  direccion : Direccion
deriving DecidableEq

/-- The mutable domain store: each variable's current candidate list. -/
abbrev Dominios := Variable → List Palabra

/-- A (partial) assignment, newest binding first; keys are unique in every
state the search reaches (Python dictionaries cannot repeat keys). -/
abbrev Asignacion := List (Variable × Palabra)

/-- Modelled from the spec: the Puzzle Structure built by `crucigrama.py`
(not under `src/`).  It exposes the variable set, the vocabulary and the
overlap table; per the spec the table is symmetric, no variable overlaps
itself, overlapping variables belong to the structure, and an overlap
`(i, j)` is an in-range cell offset along each of the two slots. -/
structure Crucigrama where
  «variables» : List Variable
  words : List Palabra
  solapamientos : Variable → Variable → Option (Nat × Nat)
  solap_symm : ∀ x y i j, solapamientos x y = some (i, j) → solapamientos y x = some (j, i)
  solap_irrefl : ∀ x, solapamientos x x = none
  solap_var : ∀ x y p, solapamientos x y = some p → x ∈ «variables» ∧ y ∈ «variables»
  solap_lt : ∀ x y i j, solapamientos x y = some (i, j) → i < x.longitud ∧ j < y.longitud

/-- Modelled from the spec: `crucigrama.py`'s `vecinos` — the variables
that cross `v` (an overlap record exists), excluding `v` itself. -/
def vecinos (c : Crucigrama) (v : Variable) : List Variable :=
  c.variables.filter (fun w => decide (w ≠ v) && (c.solapamientos v w).isSome)

theorem mem_vecinos {c : Crucigrama} {v w : Variable} :
    w ∈ vecinos c v ↔ w ∈ c.variables ∧ w ≠ v ∧ (c.solapamientos v w).isSome := by
  simp [vecinos, and_assoc]

/-- `CreadorCrucigrama.__init__`: every domain starts as a copy of the
vocabulary. -/
def initialDominios (c : Crucigrama) : Dominios := fun _ => c.words

/-- `consistencia_nodo`: drop from each variable's domain the words whose
length differs from the variable's length. -/
def consistencia_nodo (c : Crucigrama) (dom : Dominios) : Dominios :=
  fun v =>
    if v ∈ c.variables then (dom v).filter (fun w => w.length == v.longitud)
    else dom v

/-- `revisar x y`: with no overlap, do nothing and report `false`;
otherwise keep in `dom x` exactly the words with a matching partner in the
current `dom y`, reporting whether anything was removed. -/
def revisar (c : Crucigrama) (dom : Dominios) (x y : Variable) : Dominios × Bool :=
  match c.solapamientos x y with
  | none => (dom, false)
  | some (i, j) =>
    let keep := (dom x).filter
      (fun wx => (dom y).any (fun wy => wx.getD i ' ' == wy.getD j ' '))
    (Function.update dom x keep, decide (keep.length ≠ (dom x).length))

theorem revisar_ne {c : Crucigrama} {dom : Dominios} {x y v : Variable} (h : v ≠ x) :
    (revisar c dom x y).1 v = dom v := by
  unfold revisar
  cases hxy : c.solapamientos x y with
  | none => rfl
  | some p =>
    cases p with
    | mk i j => simp [Function.update_noteq h]

theorem revisar_sub (c : Crucigrama) (dom : Dominios) (x y v : Variable) :
    (revisar c dom x y).1 v ⊆ dom v := by
  by_cases h : v = x
  · subst h
    unfold revisar
    cases hxy : c.solapamientos v y with
    | none => exact fun _ h => h
    | some p =>
      cases p with
      | mk i j =>
        intro w hw
        simp only [Function.update_same] at hw
        exact (List.mem_filter.mp hw).1
  · rw [revisar_ne h]
    exact fun _ hm => hm

theorem revisar_len_le (c : Crucigrama) (dom : Dominios) (x y v : Variable) :
    ((revisar c dom x y).1 v).length ≤ (dom v).length := by
  by_cases h : v = x
  · subst h
    unfold revisar
    cases hxy : c.solapamientos v y with
    | none => exact le_refl _
    | some p =>
      cases p with
      | mk i j =>
        simp only [Function.update_same]
        exact List.length_filter_le _ _
  · rw [revisar_ne h]

theorem revisar_true_lt {c : Crucigrama} {dom : Dominios} {x y : Variable}
    (h : (revisar c dom x y).2 = true) :
    ((revisar c dom x y).1 x).length < (dom x).length := by
  cases hxy : c.solapamientos x y with
  | none => simp [revisar, hxy] at h
  | some p =>
    obtain ⟨i, j⟩ := p
    simp only [revisar, hxy, decide_eq_true_eq] at h ⊢
    simp only [Function.update_same]
    exact lt_of_le_of_ne (List.length_filter_le _ _) h

theorem revisar_false_eq {c : Crucigrama} {dom : Dominios} {x y : Variable}
    (h : (revisar c dom x y).2 = false) :
    (revisar c dom x y).1 = dom := by
  cases hxy : c.solapamientos x y with
  | none => simp [revisar, hxy]
  | some p =>
    obtain ⟨i, j⟩ := p
    simp only [revisar, hxy, decide_eq_false_iff_not, not_not] at h ⊢
    have hkeep : (dom x).filter
        (fun wx => (dom y).any (fun wy => wx.getD i ' ' == wy.getD j ' ')) = dom x :=
      (List.filter_sublist _).eq_of_length h
    simp only [hkeep, Function.update_eq_self]

/-- The initial arc list of `ac3` when called with no argument: every
directed pair (variable, neighbor). -/
def seedArcs (c : Crucigrama) : List (Variable × Variable) :=
  c.variables.flatMap (fun x => (vecinos c x).map (fun y => (x, y)))

/-- Termination measure for the AC-3 loops: total size of the domains of
every variable that can ever be revised, weighted so that one removed word
pays for all re-enqueued arcs, plus the pending arc count. -/
def medidaAC (c : Crucigrama) (dom : Dominios) (arcs : List (Variable × Variable)) : Nat :=
  (c.variables.length + 2) *
      ((c.variables.toFinset ∪ (arcs.map Prod.fst).toFinset).sum fun v => (dom v).length)
    + arcs.length

theorem sum_le_union {s t : Finset Variable} (f : Variable → Nat) (h : s ⊆ t) :
    s.sum f ≤ t.sum f :=
  Finset.sum_le_sum_of_subset h

theorem medida_dec_true {c : Crucigrama} {dom : Dominios} {x y : Variable}
    {rest : List (Variable × Variable)}
    (h : (revisar c dom x y).2 = true) :
    medidaAC c (revisar c dom x y).1
        (((vecinos c x).filter (fun z => decide (z ≠ y))).map (fun z => (z, x)) ++ rest) <
      medidaAC c dom ((x, y) :: rest) := by
  set dom' := (revisar c dom x y).1 with hd
  set arcs' := ((vecinos c x).filter (fun z => decide (z ≠ y))).map (fun z => (z, x)) ++ rest
    with ha
  set S : Finset Variable :=
    c.variables.toFinset ∪ (((x, y) :: rest).map Prod.fst).toFinset with hS
  set S' : Finset Variable := c.variables.toFinset ∪ (arcs'.map Prod.fst).toFinset with hS'
  have hsub : S' ⊆ S := by
    intro v hv
    rw [hS', Finset.mem_union] at hv
    rw [hS, Finset.mem_union]
    rcases hv with hv | hv
    · exact Or.inl hv
    · simp only [List.mem_toFinset, List.mem_map, List.mem_append, ha,
        List.mem_filter] at hv
      obtain ⟨p, hp, hpv⟩ := hv
      rcases hp with hp | hp
      · obtain ⟨z, hz, hzp⟩ := hp
        left
        rw [List.mem_toFinset]
        have := (mem_vecinos.mp hz.1).1
        rw [← hpv, ← hzp]
        exact this
      · right
        rw [List.mem_toFinset]
        simp only [List.map_cons, List.mem_cons]
        exact Or.inr (List.mem_map.mpr ⟨p, hp, hpv⟩)
  have hxS : x ∈ S := by
    rw [hS, Finset.mem_union]
    right
    simp
  have h1 : (S'.sum fun v => (dom' v).length) ≤ S.sum fun v => (dom' v).length :=
    sum_le_union _ hsub
  have h2 : (S.sum fun v => (dom' v).length) < S.sum fun v => (dom v).length := by
    refine Finset.sum_lt_sum (fun v _ => revisar_len_le c dom x y v) ⟨x, hxS, ?_⟩
    exact revisar_true_lt h
  have h3 : (S'.sum fun v => (dom' v).length) + 1 ≤ S.sum fun v => (dom v).length :=
    Nat.succ_le_of_lt (lt_of_le_of_lt h1 h2)
  have h4 : arcs'.length ≤ c.variables.length + rest.length := by
    rw [ha, List.length_append, List.length_map]
    have : (((vecinos c x)).filter (fun z => decide (z ≠ y))).length ≤ (vecinos c x).length :=
      List.length_filter_le _ _
    have h5 : (vecinos c x).length ≤ c.variables.length := List.length_filter_le _ _
    omega
  unfold medidaAC
  rw [← hS, ← hS']
  have hmul : (c.variables.length + 2) * ((S'.sum fun v => (dom' v).length) + 1) ≤
      (c.variables.length + 2) * (S.sum fun v => (dom v).length) :=
    Nat.mul_le_mul_left _ h3
  simp only [List.length_cons]
  nlinarith [hmul, h4]

theorem medida_dec_false {c : Crucigrama} {dom : Dominios} {x y : Variable}
    {rest : List (Variable × Variable)}
    (h : (revisar c dom x y).2 = false) :
    medidaAC c (revisar c dom x y).1 rest < medidaAC c dom ((x, y) :: rest) := by
  rw [revisar_false_eq h]
  unfold medidaAC
  have hsub : c.variables.toFinset ∪ (rest.map Prod.fst).toFinset ⊆
      c.variables.toFinset ∪ (((x, y) :: rest).map Prod.fst).toFinset := by
    intro v hv
    rw [Finset.mem_union] at hv ⊢
    rcases hv with hv | hv
    · exact Or.inl hv
    · right
      simp only [List.mem_toFinset, List.map_cons, List.mem_cons] at hv ⊢
      exact Or.inr hv
  have h1 := sum_le_union (fun v => (dom v).length) hsub
  have hmul := Nat.mul_le_mul_left (c.variables.length + 2) h1
  simp only [List.length_cons]
  omega

/-- `ac3`: pop an arc, revise; on a revision that empties the revised
domain return `false`, otherwise re-enqueue the inbound arcs of the revised
variable; `true` once the list is exhausted.  The Python list is used
last-in-first-out; its most-recently-added end is the head here. -/
def ac3 (c : Crucigrama) (dom : Dominios) (arcs : List (Variable × Variable)) :
    Dominios × Bool :=
  match arcs with
  | [] => (dom, true)
  | (x, y) :: rest =>
    let r := revisar c dom x y
    if hrev : r.2 = true then
      if (r.1 x).isEmpty then (r.1, false)
      else ac3 c r.1 (((vecinos c x).filter (fun z => decide (z ≠ y))).map (fun z => (z, x)) ++ rest)
    else ac3 c r.1 rest
termination_by medidaAC c dom arcs
decreasing_by
  · exact medida_dec_true hrev
  · exact medida_dec_false (Bool.not_eq_true _ ▸ hrev)

/-- `asignacion_completa`: the assignment's key set equals the variable
set. -/
def asignacion_completa (c : Crucigrama) (asig : Asignacion) : Bool :=
  decide ((asig.map Prod.fst).toFinset = c.variables.toFinset)

/-- `consistencia`: every assigned word has its slot's length, and every
assigned pair of crossing variables agrees on the shared letter.  The
source walks the assignment and, for each bound variable, its assigned
neighbors; with unique keys that is the conjunction over all bound pairs
modelled here. -/
def consistencia (c : Crucigrama) (asig : Asignacion) : Bool :=
  asig.all fun p =>
    (p.1.longitud == p.2.length) &&
    (asig.all fun q =>
      if q.1 ∈ vecinos c p.1 then
        match c.solapamientos p.1 q.1 with
        | some (i, j) => p.2.getD i ' ' == q.2.getD j ' '
        | none => true
      else true)

/-- The conflict count of `ordenar_valores_dominio`: how many unassigned
neighbors still hold this very word in their domain. -/
def conflictos (c : Crucigrama) (dom : Dominios) (asig : Asignacion) (var : Variable)
    (palabra : Palabra) : Nat :=
  (vecinos c var).countP fun ve =>
    decide (ve ∉ asig.map Prod.fst) && decide (palabra ∈ dom ve)

/-- `ordenar_valores_dominio`: the domain of `var` sorted by ascending
conflict count.  Python's `sorted` is the stable sort by the key, which is
`insertionSort` with the key's total preorder. -/
def ordenar_valores_dominio (c : Crucigrama) (dom : Dominios) (var : Variable)
    (asig : Asignacion) : List Palabra :=
  List.insertionSort
    (fun a b => conflictos c dom asig var a ≤ conflictos c dom asig var b) (dom var)

/-- The list comprehension of `seleccionar_variable_no_asignada`: the
variables not yet bound by the assignment. -/
def noAsignadas (c : Crucigrama) (asig : Asignacion) : List Variable :=
  c.variables.filter fun v => decide (v ∉ asig.map Prod.fst)

/-- The sort key of `seleccionar_variable_no_asignada`: ascending remaining
domain size, ties by descending neighbor count. -/
def mrvRel (c : Crucigrama) (dom : Dominios) (u v : Variable) : Prop :=
  (dom u).length < (dom v).length ∨
    ((dom u).length = (dom v).length ∧ (vecinos c v).length ≤ (vecinos c u).length)

instance mrvRelDec (c : Crucigrama) (dom : Dominios) : DecidableRel (mrvRel c dom) :=
  fun _ _ => by unfold mrvRel; infer_instance

/-- `seleccionar_variable_no_asignada`: stable-sort the unassigned
variables by the heuristic key and take the first (`none` models the
source's `IndexError` when all variables are assigned; `backtrack` never
reaches it). -/
def seleccionar_variable_no_asignada (c : Crucigrama) (dom : Dominios)
    (asig : Asignacion) : Option Variable :=
  (List.insertionSort (mrvRel c dom) (noAsignadas c asig)).head?

/-- The `inferences` dictionary: touched variable, post-revision domain
copy.  Later entries shadow earlier ones for the same key, matching the
dictionary's overwrite-on-update. -/
abbrev Inferencias := List (Variable × List Palabra)

/-- The two `for variable in inferences` loops of `backtrack`: write every
recorded domain copy into the store. -/
def aplicarInferencias (dom : Dominios) (inf : Inferencias) : Dominios :=
  inf.foldl (fun d p => Function.update d p.1 p.2) dom

/-- `inferencia`'s queue loop: like `ac3`, but on a revision it records the
revised variable's resulting domain, and a wiped-out domain aborts with
`None` — leaving the store as already mutated. -/
def inferencia (c : Crucigrama) (dom : Dominios) (queue : List (Variable × Variable))
    (inf : Inferencias) : Dominios × Option Inferencias :=
  match queue with
  | [] => (dom, some inf)
  | (x, y) :: rest =>
    let r := revisar c dom x y
    if hrev : r.2 = true then
      if (r.1 x).isEmpty then (r.1, none)
      else
        inferencia c r.1
          (((vecinos c x).filter (fun z => decide (z ≠ y))).map (fun z => (z, x)) ++ rest)
          (inf ++ [(x, r.1 x)])
    else inferencia c r.1 rest inf
termination_by medidaAC c dom queue
decreasing_by
  · exact medida_dec_true hrev
  · exact medida_dec_false (Bool.not_eq_true _ ▸ hrev)

/-- `inferencia` as called by `backtrack`: seed the queue with the inbound
arcs of the just-assigned variable.  The assignment parameter exists in
the source but its body never reads it. -/
def inferenciaDesde (c : Crucigrama) (dom : Dominios) (asig : Asignacion)
    (var : Variable) : Dominios × Option Inferencias :=
  inferencia c dom ((vecinos c var).map (fun x => (x, var))) []

/-- Python truthiness of `if resultado:`: `None` and the empty dictionary
are falsy. -/
def truthy : Option Asignacion → Bool
  | none => false
  | some a => !a.isEmpty

theorem length_filter_lt {α : Type} {p : α → Bool} {l : List α} {a : α}
    (ha : a ∈ l) (hpa : p a = false) : (l.filter p).length < l.length := by
  induction l with
  | nil => cases ha
  | cons b t ih =>
    rcases List.mem_cons.mp ha with rfl | hat
    · rw [List.filter_cons, hpa]
      exact Nat.lt_succ_of_le (List.length_filter_le _ _)
    · rw [List.filter_cons]
      cases hb : p b
      · exact Nat.lt_succ_of_lt (ih hat)
      · simpa using Nat.succ_lt_succ (ih hat)

theorem noAsignadas_cons_lt {c : Crucigrama} {asig : Asignacion} {var : Variable}
    (valor : Palabra) (h : var ∈ noAsignadas c asig) :
    (noAsignadas c ((var, valor) :: asig)).length < (noAsignadas c asig).length := by
  have hvar : var ∈ c.variables ∧ decide (var ∉ asig.map Prod.fst) = true :=
    List.mem_filter.mp h
  have heq : noAsignadas c ((var, valor) :: asig) =
      (noAsignadas c asig).filter fun v => decide (v ≠ var) := by
    unfold noAsignadas
    rw [List.filter_filter]
    apply List.filter_congr
    intro v _
    by_cases h1 : v = var <;> by_cases h2 : v ∈ asig.map Prod.fst <;> simp [h1, h2]
  rw [heq]
  exact length_filter_lt h (by simp)

theorem sel_mem {c : Crucigrama} {dom : Dominios} {asig : Asignacion} {var : Variable}
    (h : seleccionar_variable_no_asignada c dom asig = some var) :
    var ∈ noAsignadas c asig := by
  unfold seleccionar_variable_no_asignada at h
  exact (List.perm_insertionSort (mrvRel c dom) (noAsignadas c asig)).subset
    (List.mem_of_mem_head? h)

mutual

/-- `backtrack`: return the assignment once complete, else pick a variable
and try its values in heuristic order.  The pair threads the domain store
(`self.dominios`), which the source mutates in place. -/
def backtrack (c : Crucigrama) (dom : Dominios) (asig : Asignacion) :
    Dominios × Option Asignacion :=
  if asignacion_completa c asig then (dom, some asig)
  else
    match hsel : seleccionar_variable_no_asignada c dom asig with
    | none => (dom, none)
    | some var =>
      probarValores c var asig (ordenar_valores_dominio c dom var asig) dom (sel_mem hsel)
termination_by ((noAsignadas c asig).length, 1, 0)
decreasing_by
  exact Prod.Lex.right _ (Prod.Lex.left _ _ (by omega))

/-- The `for valor in ...` loop body of `backtrack`: check consistency,
infer, merge the recorded domains, recurse; a falsy result triggers the
"undo" loop, which writes the recorded (post-inference) copies back. -/
def probarValores (c : Crucigrama) (var : Variable) (asig : Asignacion)
    (vals : List Palabra) (dom : Dominios) (h : var ∈ noAsignadas c asig) :
    Dominios × Option Asignacion :=
  match vals with
  | [] => (dom, none)
  | valor :: rest =>
    let nueva : Asignacion := (var, valor) :: asig
    if consistencia c nueva then
      match hinf : inferenciaDesde c dom nueva var with
      | (dom1, none) => probarValores c var asig rest dom1 h
      | (dom1, some inf) =>
        let res := backtrack c (aplicarInferencias dom1 inf) nueva
        if truthy res.2 then res
        else probarValores c var asig rest (aplicarInferencias res.1 inf) h
    else probarValores c var asig rest dom h
termination_by ((noAsignadas c asig).length, 0, vals.length)
decreasing_by
  · exact Prod.Lex.right _ (Prod.Lex.right _ (Nat.lt_succ_self _))
  · exact Prod.Lex.left _ _ (noAsignadas_cons_lt valor h)
  · exact Prod.Lex.right _ (Prod.Lex.right _ (Nat.lt_succ_self _))
  · exact Prod.Lex.right _ (Prod.Lex.right _ (Nat.lt_succ_self _))

end

/-- `solve`: node consistency, then `ac3` (whose Boolean result the source
discards), then backtracking search from the empty assignment. -/
def solve (c : Crucigrama) : Dominios × Option Asignacion :=
  let d1 := consistencia_nodo c (initialDominios c)
  let p := ac3 c d1 (seedArcs c)
  backtrack c p.1 []

/-! Unfolding steps of the loops, phrased so that concrete runs can be
replayed one revision at a time. -/

theorem ac3_nil (c : Crucigrama) (dom : Dominios) : ac3 c dom [] = (dom, true) := by
  rw [ac3]

theorem ac3_wipe {c : Crucigrama} {dom : Dominios} {x y : Variable}
    {rest : List (Variable × Variable)}
    (h1 : (revisar c dom x y).2 = true) (h2 : ((revisar c dom x y).1 x).isEmpty = true) :
    ac3 c dom ((x, y) :: rest) = ((revisar c dom x y).1, false) := by
  rw [ac3]
  rw [dif_pos h1, if_pos h2]

theorem ac3_rec {c : Crucigrama} {dom : Dominios} {x y : Variable}
    {rest : List (Variable × Variable)}
    (h1 : (revisar c dom x y).2 = true) (h2 : ((revisar c dom x y).1 x).isEmpty = false) :
    ac3 c dom ((x, y) :: rest) =
      ac3 c (revisar c dom x y).1
        (((vecinos c x).filter (fun z => decide (z ≠ y))).map (fun z => (z, x)) ++ rest) := by
  rw [ac3]
  rw [dif_pos h1, if_neg (by simp [h2])]

theorem ac3_skip {c : Crucigrama} {dom : Dominios} {x y : Variable}
    {rest : List (Variable × Variable)}
    (h1 : (revisar c dom x y).2 = false) :
    ac3 c dom ((x, y) :: rest) = ac3 c (revisar c dom x y).1 rest := by
  rw [ac3]
  rw [dif_neg (by simp [h1])]

theorem inferencia_nil (c : Crucigrama) (dom : Dominios) (inf : Inferencias) :
    inferencia c dom [] inf = (dom, some inf) := by
  rw [inferencia]

theorem inferencia_wipe {c : Crucigrama} {dom : Dominios} {x y : Variable}
    {rest : List (Variable × Variable)} {inf : Inferencias}
    (h1 : (revisar c dom x y).2 = true) (h2 : ((revisar c dom x y).1 x).isEmpty = true) :
    inferencia c dom ((x, y) :: rest) inf = ((revisar c dom x y).1, none) := by
  rw [inferencia]
  rw [dif_pos h1, if_pos h2]

theorem inferencia_rec {c : Crucigrama} {dom : Dominios} {x y : Variable}
    {rest : List (Variable × Variable)} {inf : Inferencias}
    (h1 : (revisar c dom x y).2 = true) (h2 : ((revisar c dom x y).1 x).isEmpty = false) :
    inferencia c dom ((x, y) :: rest) inf =
      inferencia c (revisar c dom x y).1
        (((vecinos c x).filter (fun z => decide (z ≠ y))).map (fun z => (z, x)) ++ rest)
        (inf ++ [(x, (revisar c dom x y).1 x)]) := by
  rw [inferencia]
  rw [dif_pos h1, if_neg (by simp [h2])]

theorem inferencia_skip {c : Crucigrama} {dom : Dominios} {x y : Variable}
    {rest : List (Variable × Variable)} {inf : Inferencias}
    (h1 : (revisar c dom x y).2 = false) :
    inferencia c dom ((x, y) :: rest) inf = inferencia c (revisar c dom x y).1 rest inf := by
  rw [inferencia]
  rw [dif_neg (by simp [h1])]

theorem backtrack_full {c : Crucigrama} {dom : Dominios} {asig : Asignacion}
    (h : asignacion_completa c asig = true) :
    backtrack c dom asig = (dom, some asig) := by
  rw [backtrack]
  rw [if_pos h]

theorem backtrack_sel {c : Crucigrama} {dom : Dominios} {asig : Asignacion} {var : Variable}
    (h : asignacion_completa c asig = false)
    (hsel : seleccionar_variable_no_asignada c dom asig = some var) :
    backtrack c dom asig =
      probarValores c var asig (ordenar_valores_dominio c dom var asig) dom (sel_mem hsel) := by
  rw [backtrack]
  rw [if_neg (by simp [h])]
  split
  · rename_i heq
    rw [heq] at hsel
    cases hsel
  · rename_i v heq
    rw [heq] at hsel
    obtain rfl : v = var := by cases hsel; rfl
    rfl

theorem probarValores_nil (c : Crucigrama) (var : Variable) (asig : Asignacion)
    (dom : Dominios) (h : var ∈ noAsignadas c asig) :
    probarValores c var asig [] dom h = (dom, none) := by
  rw [probarValores]

theorem probarValores_incons {c : Crucigrama} {var : Variable} {asig : Asignacion}
    {valor : Palabra} {rest : List Palabra} {dom : Dominios} {h : var ∈ noAsignadas c asig}
    (hc : consistencia c ((var, valor) :: asig) = false) :
    probarValores c var asig (valor :: rest) dom h = probarValores c var asig rest dom h := by
  rw [probarValores]
  rw [if_neg (by simp [hc])]

theorem probarValores_wipe {c : Crucigrama} {var : Variable} {asig : Asignacion}
    {valor : Palabra} {rest : List Palabra} {dom dom1 : Dominios} {h : var ∈ noAsignadas c asig}
    (hc : consistencia c ((var, valor) :: asig) = true)
    (hi : inferenciaDesde c dom ((var, valor) :: asig) var = (dom1, none)) :
    probarValores c var asig (valor :: rest) dom h = probarValores c var asig rest dom1 h := by
  rw [probarValores]
  rw [if_pos hc]
  split
  · rename_i d hd
    rw [hi] at hd
    obtain rfl : dom1 = d := by cases hd; rfl
    rfl
  · rename_i d i hd
    rw [hi] at hd
    cases hd

theorem probarValores_exito {c : Crucigrama} {var : Variable} {asig : Asignacion}
    {valor : Palabra} {rest : List Palabra} {dom dom1 : Dominios} {inf : Inferencias}
    {h : var ∈ noAsignadas c asig}
    (hc : consistencia c ((var, valor) :: asig) = true)
    (hi : inferenciaDesde c dom ((var, valor) :: asig) var = (dom1, some inf))
    (ht : truthy (backtrack c (aplicarInferencias dom1 inf) ((var, valor) :: asig)).2 = true) :
    probarValores c var asig (valor :: rest) dom h =
      backtrack c (aplicarInferencias dom1 inf) ((var, valor) :: asig) := by
  rw [probarValores]
  rw [if_pos hc]
  split
  · rename_i d hd
    rw [hi] at hd
    cases hd
  · rename_i d i hd
    rw [hi] at hd
    obtain ⟨rfl, rfl⟩ : dom1 = d ∧ inf = i := by cases hd; exact ⟨rfl, rfl⟩
    rw [if_pos ht]

theorem probarValores_fallo {c : Crucigrama} {var : Variable} {asig : Asignacion}
    {valor : Palabra} {rest : List Palabra} {dom dom1 : Dominios} {inf : Inferencias}
    {h : var ∈ noAsignadas c asig}
    (hc : consistencia c ((var, valor) :: asig) = true)
    (hi : inferenciaDesde c dom ((var, valor) :: asig) var = (dom1, some inf))
    (ht : truthy (backtrack c (aplicarInferencias dom1 inf) ((var, valor) :: asig)).2 = false) :
    probarValores c var asig (valor :: rest) dom h =
      probarValores c var asig rest
        (aplicarInferencias (backtrack c (aplicarInferencias dom1 inf) ((var, valor) :: asig)).1 inf)
        h := by
  rw [probarValores]
  rw [if_pos hc]
  split
  · rename_i d hd
    rw [hi] at hd
    cases hd
  · rename_i d i hd
    rw [hi] at hd
    obtain ⟨rfl, rfl⟩ : dom1 = d ∧ inf = i := by cases hd; exact ⟨rfl, rfl⟩
    rw [if_neg (by simp [ht])]

/-! Arc-consistency invariant of the `ac3` loop. -/

/-- Every word of `dom x` has a matching partner in `dom y` at the overlap
`(i, j)`. -/
def soporte (dom : Dominios) (x y : Variable) (i j : Nat) : Prop :=
  ∀ wx ∈ dom x, ∃ wy ∈ dom y, wx.getD i ' ' = wy.getD j ' '

/-- Loop invariant: every overlapping pair is either still queued for
revision or already supported. -/
def invAC (c : Crucigrama) (dom : Dominios) (arcs : List (Variable × Variable)) : Prop :=
  ∀ x y i j, c.solapamientos x y = some (i, j) → (x, y) ∈ arcs ∨ soporte dom x y i j

theorem solap_ne {c : Crucigrama} {x y : Variable} {p : Nat × Nat}
    (h : c.solapamientos x y = some p) : x ≠ y := by
  intro he
  subst he
  rw [c.solap_irrefl] at h
  cases h

theorem revisar_mem {c : Crucigrama} {dom : Dominios} {x y : Variable} {i j : Nat}
    (hxy : c.solapamientos x y = some (i, j)) {w : Palabra} :
    w ∈ (revisar c dom x y).1 x ↔
      w ∈ dom x ∧ ∃ wy ∈ dom y, w.getD i ' ' = wy.getD j ' ' := by
  simp only [revisar, hxy, Function.update_same, List.mem_filter, List.any_eq_true,
    beq_iff_eq]

theorem revisar_true_soporte {c : Crucigrama} {dom : Dominios} {x y : Variable} {i j : Nat}
    (hxy : c.solapamientos x y = some (i, j)) :
    soporte (revisar c dom x y).1 x y i j := by
  intro wx hwx
  obtain ⟨_, wy, hwy, he⟩ := (revisar_mem hxy).mp hwx
  refine ⟨wy, ?_, he⟩
  rw [revisar_ne (Ne.symm (solap_ne hxy))]
  exact hwy

theorem revisar_false_soporte {c : Crucigrama} {dom : Dominios} {x y : Variable} {i j : Nat}
    (hxy : c.solapamientos x y = some (i, j)) (h : (revisar c dom x y).2 = false) :
    soporte dom x y i j := by
  simp only [revisar, hxy, decide_eq_false_iff_not, not_not] at h
  have hkeep : (dom x).filter
      (fun wx => (dom y).any (fun wy => wx.getD i ' ' == wy.getD j ' ')) = dom x :=
    (List.filter_sublist _).eq_of_length h
  intro wx hwx
  have hall := List.filter_eq_self.mp hkeep wx hwx
  simp only [List.any_eq_true, beq_iff_eq] at hall
  exact hall

theorem invAC_step_true {c : Crucigrama} {dom : Dominios} {x y : Variable}
    {rest : List (Variable × Variable)}
    (h1 : (revisar c dom x y).2 = true)
    (hinv : invAC c dom ((x, y) :: rest)) :
    invAC c (revisar c dom x y).1
      (((vecinos c x).filter (fun z => decide (z ≠ y))).map (fun z => (z, x)) ++ rest) := by
  have hxy : ∃ i0 j0, c.solapamientos x y = some (i0, j0) := by
    cases hc : c.solapamientos x y with
    | none => simp [revisar, hc] at h1
    | some p =>
      obtain ⟨i0, j0⟩ := p
      exact ⟨i0, j0, rfl⟩
  obtain ⟨i0, j0, hxy⟩ := hxy
  have hxney : x ≠ y := solap_ne hxy
  intro a b i j hab
  by_cases hax : a = x
  · subst hax
    by_cases hby : b = y
    · subst hby
      right
      have hij : i = i0 ∧ j = j0 := by
        rw [hab] at hxy
        injection hxy with h
        injection h with h3 h4
        exact ⟨h3, h4⟩
      obtain ⟨rfl, rfl⟩ := hij
      exact revisar_true_soporte hxy
    · rcases hinv a b i j hab with hmem | hsop
      · rcases List.mem_cons.mp hmem with he | hm
        · injection he with he1 he2
          exact absurd he2 hby
        · exact Or.inl (List.mem_append.mpr (Or.inr hm))
      · right
        intro wx hwx
        obtain ⟨wy, hwy, he⟩ := hsop wx (revisar_sub c dom a y a hwx)
        refine ⟨wy, ?_, he⟩
        rw [revisar_ne (Ne.symm (solap_ne hab))]
        exact hwy
  · by_cases hbx : b = x
    · subst hbx
      by_cases hay : a = y
      · subst hay
        rcases hinv a b i j hab with hmem | hsop
        · rcases List.mem_cons.mp hmem with he | hm
          · injection he with he1 he2
            exact absurd he1.symm hxney
          · exact Or.inl (List.mem_append.mpr (Or.inr hm))
        · right
          have hsym : c.solapamientos a b = some (j0, i0) := c.solap_symm b a i0 j0 hxy
          have hij : i = j0 ∧ j = i0 := by
            rw [hab] at hsym
            injection hsym with h
            injection h with h3 h4
            exact ⟨h3, h4⟩
          obtain ⟨rfl, rfl⟩ := hij
          intro wy hwy
          rw [revisar_ne (Ne.symm hxney)] at hwy
          obtain ⟨wx, hwx, he⟩ := hsop wy hwy
          exact ⟨wx, (revisar_mem hxy).mpr ⟨hwx, wy, hwy, he.symm⟩, he⟩
      · left
        apply List.mem_append.mpr
        left
        apply List.mem_map.mpr
        refine ⟨a, ?_, rfl⟩
        apply List.mem_filter.mpr
        refine ⟨?_, by simp [hay]⟩
        apply mem_vecinos.mpr
        have hsym : c.solapamientos b a = some (j, i) := c.solap_symm a b i j hab
        exact ⟨(c.solap_var a b _ hab).1, hax, by rw [hsym]; rfl⟩
    · rcases hinv a b i j hab with hmem | hsop
      · rcases List.mem_cons.mp hmem with he | hm
        · injection he with he1 he2
          exact absurd he1 hax
        · exact Or.inl (List.mem_append.mpr (Or.inr hm))
      · right
        intro wx hwx
        rw [revisar_ne hax] at hwx
        obtain ⟨wy, hwy, he⟩ := hsop wx hwx
        refine ⟨wy, ?_, he⟩
        rw [revisar_ne hbx]
        exact hwy

theorem invAC_step_false {c : Crucigrama} {dom : Dominios} {x y : Variable}
    {rest : List (Variable × Variable)}
    (h1 : (revisar c dom x y).2 = false)
    (hinv : invAC c dom ((x, y) :: rest)) : invAC c dom rest := by
  intro a b i j hab
  rcases hinv a b i j hab with hmem | hsop
  · rcases List.mem_cons.mp hmem with he | hm
    · injection he with he1 he2
      subst he1
      subst he2
      exact Or.inr (revisar_false_soporte hab h1)
    · exact Or.inl hm
  · exact Or.inr hsop

theorem invAC_seed (c : Crucigrama) (dom : Dominios) : invAC c dom (seedArcs c) := by
  intro x y i j hxy
  left
  unfold seedArcs
  apply List.mem_flatMap.mpr
  refine ⟨x, (c.solap_var x y _ hxy).1, ?_⟩
  apply List.mem_map.mpr
  refine ⟨y, ?_, rfl⟩
  apply mem_vecinos.mpr
  exact ⟨(c.solap_var x y _ hxy).2, Ne.symm (solap_ne hxy), by rw [hxy]; rfl⟩

theorem ac3_true_soporte {c : Crucigrama} (dom : Dominios)
    (arcs : List (Variable × Variable)) :
    ∀ dom', invAC c dom arcs → ac3 c dom arcs = (dom', true) →
      ∀ x y i j, c.solapamientos x y = some (i, j) → soporte dom' x y i j := by
  induction dom, arcs using ac3.induct c with
  | case1 dom =>
    intro dom' hinv heq x y i j hxy
    rw [ac3_nil] at heq
    injection heq with he1 he2
    subst he1
    rcases hinv x y i j hxy with hmem | hsop
    · cases hmem
    · exact hsop
  | case2 dom x y rest r h1 h2 =>
    intro dom' hinv heq x' y' i j hxy
    rw [ac3_wipe h1 h2] at heq
    injection heq with he1 he2
    cases he2
  | case3 dom x y rest r h1 h2 ih =>
    intro dom' hinv heq x' y' i j hxy
    rw [ac3_rec h1 (Bool.not_eq_true _ ▸ h2)] at heq
    exact ih dom' (invAC_step_true h1 hinv) heq x' y' i j hxy
  | case4 dom x y rest r h1 ih =>
    intro dom' hinv heq x' y' i j hxy
    have h1' : (revisar c dom x y).2 = false := Bool.not_eq_true _ ▸ h1
    rw [ac3_skip h1'] at heq
    rw [revisar_false_eq h1'] at heq
    exact ih dom' (by rw [revisar_false_eq h1']; exact invAC_step_false h1' hinv) (by rw [revisar_false_eq h1']; exact heq) x' y' i j hxy

theorem ac3_sub {c : Crucigrama} (dom : Dominios) (arcs : List (Variable × Variable)) :
    ∀ v, (ac3 c dom arcs).1 v ⊆ dom v := by
  induction dom, arcs using ac3.induct c with
  | case1 dom => intro v; rw [ac3_nil]; exact fun _ h => h
  | case2 dom x y rest r h1 h2 =>
    intro v
    rw [ac3_wipe h1 h2]
    exact revisar_sub c dom x y v
  | case3 dom x y rest r h1 h2 ih =>
    intro v
    rw [ac3_rec h1 (Bool.not_eq_true _ ▸ h2)]
    exact fun w hw => revisar_sub c dom x y v (ih v hw)
  | case4 dom x y rest r h1 ih =>
    intro v
    have h1' : (revisar c dom x y).2 = false := Bool.not_eq_true _ ▸ h1
    rw [ac3_skip h1']
    exact fun w hw => revisar_sub c dom x y v (ih v hw)

theorem ac3_true_ne {c : Crucigrama} (dom : Dominios) (arcs : List (Variable × Variable)) :
    ∀ dom', ac3 c dom arcs = (dom', true) → ∀ v, dom v ≠ [] → dom' v ≠ [] := by
  induction dom, arcs using ac3.induct c with
  | case1 dom =>
    intro dom' heq v hv
    rw [ac3_nil] at heq
    injection heq with he1 he2
    subst he1
    exact hv
  | case2 dom x y rest r h1 h2 =>
    intro dom' heq
    rw [ac3_wipe h1 h2] at heq
    injection heq with he1 he2
    cases he2
  | case3 dom x y rest r h1 h2 ih =>
    intro dom' heq v hv
    rw [ac3_rec h1 (Bool.not_eq_true _ ▸ h2)] at heq
    refine ih dom' heq v ?_
    by_cases hvx : v = x
    · subst hvx
      intro he
      rw [he] at h2
      simp at h2
    · rw [revisar_ne hvx]
      exact hv
  | case4 dom x y rest r h1 ih =>
    intro dom' heq v hv
    have h1' : (revisar c dom x y).2 = false := Bool.not_eq_true _ ▸ h1
    rw [ac3_skip h1'] at heq
    refine ih dom' heq v ?_
    rw [revisar_false_eq h1']
    exact hv

/-! Preservation of the vocabulary along the search. -/

theorem inferencia_words {c : Crucigrama} {W : List Palabra} :
    ∀ (dom : Dominios) (queue : List (Variable × Variable)) (inf : Inferencias),
      (∀ v, dom v ⊆ W) → (∀ p ∈ inf, p.2 ⊆ W) →
      (∀ v, (inferencia c dom queue inf).1 v ⊆ W) ∧
      (∀ inf', (inferencia c dom queue inf).2 = some inf' → ∀ p ∈ inf', p.2 ⊆ W) := by
  intro dom queue inf
  induction dom, queue, inf using inferencia.induct c with
  | case1 dom inf =>
    intro hdom hinf
    rw [inferencia_nil]
    refine ⟨hdom, ?_⟩
    intro inf' h
    have : inf = inf' := by injection h
    subst this
    exact hinf
  | case2 dom inf x y rest r h1 h2 =>
    intro hdom hinf
    rw [inferencia_wipe h1 h2]
    refine ⟨?_, ?_⟩
    · intro v w hw
      exact hdom v (revisar_sub c dom x y v hw)
    · intro inf' h
      cases h
  | case3 dom inf x y rest r h1 h2 ih =>
    intro hdom hinf
    rw [inferencia_rec h1 (Bool.not_eq_true _ ▸ h2)]
    apply ih
    · intro v w hw
      exact hdom v (revisar_sub c dom x y v hw)
    · intro p hp
      rcases List.mem_append.mp hp with hp | hp
      · exact hinf p hp
      · rcases List.mem_cons.mp hp with rfl | hp
        · intro w hw
          exact hdom x (revisar_sub c dom x y x hw)
        · cases hp
  | case4 dom inf x y rest r h1 ih =>
    intro hdom hinf
    rw [inferencia_skip (Bool.not_eq_true _ ▸ h1)]
    apply ih
    · intro v w hw
      exact hdom v (revisar_sub c dom x y v hw)
    · exact hinf

theorem aplicar_words {W : List Palabra} :
    ∀ (inf : Inferencias) (dom : Dominios), (∀ v, dom v ⊆ W) → (∀ p ∈ inf, p.2 ⊆ W) →
      ∀ v, aplicarInferencias dom inf v ⊆ W := by
  intro inf
  induction inf with
  | nil => intro dom hdom _ v; exact hdom v
  | cons p t ih =>
    intro dom hdom hinf v
    show (aplicarInferencias (Function.update dom p.1 p.2) t) v ⊆ W
    apply ih
    · intro u
      by_cases hu : u = p.1
      · subst hu
        rw [Function.update_same]
        exact hinf p (List.mem_cons_self _ _)
      · rw [Function.update_noteq hu]
        exact hdom u
    · intro q hq
      exact hinf q (List.mem_cons_of_mem _ hq)

theorem ordenar_sub {c : Crucigrama} {dom : Dominios} {var : Variable} {asig : Asignacion}
    {w : Palabra} (hw : w ∈ ordenar_valores_dominio c dom var asig) : w ∈ dom var :=
  (List.perm_insertionSort _ _).subset hw

theorem backtrack_none {c : Crucigrama} {dom : Dominios} {asig : Asignacion}
    (h : asignacion_completa c asig = false)
    (hsel : seleccionar_variable_no_asignada c dom asig = none) :
    backtrack c dom asig = (dom, none) := by
  rw [backtrack]
  rw [if_neg (by simp [h])]
  split
  · rfl
  · rename_i v heq
    rw [heq] at hsel
    cases hsel

/-- Master invariant of the search: starting from a consistent assignment
whose words (and whole store) come from the vocabulary, the store stays
inside the vocabulary, and any assignment returned is complete, consistent
and drawn from the vocabulary. -/
theorem backtrack_sound (c : Crucigrama) (dom : Dominios) (asig : Asignacion) :
    consistencia c asig = true → (∀ p ∈ asig, p.2 ∈ c.words) → (∀ v, dom v ⊆ c.words) →
    (∀ v, (backtrack c dom asig).1 v ⊆ c.words) ∧
      ∀ r, (backtrack c dom asig).2 = some r →
        asignacion_completa c r = true ∧ consistencia c r = true ∧ ∀ p ∈ r, p.2 ∈ c.words := by
  refine backtrack.induct c
    (fun dom asig => consistencia c asig = true → (∀ p ∈ asig, p.2 ∈ c.words) →
      (∀ v, dom v ⊆ c.words) →
      (∀ v, (backtrack c dom asig).1 v ⊆ c.words) ∧
      ∀ r, (backtrack c dom asig).2 = some r →
        asignacion_completa c r = true ∧ consistencia c r = true ∧ ∀ p ∈ r, p.2 ∈ c.words)
    (fun var asig vals dom h => (∀ p ∈ asig, p.2 ∈ c.words) →
      (∀ w ∈ vals, w ∈ c.words) → (∀ v, dom v ⊆ c.words) →
      (∀ v, (probarValores c var asig vals dom h).1 v ⊆ c.words) ∧
      ∀ r, (probarValores c var asig vals dom h).2 = some r →
        asignacion_completa c r = true ∧ consistencia c r = true ∧ ∀ p ∈ r, p.2 ∈ c.words)
    ?_ ?_ ?_ ?_ ?_ ?_ ?_ ?_ dom asig
  · intro dom asig hfull hco hw hdom
    rw [backtrack_full hfull]
    refine ⟨hdom, ?_⟩
    intro r hr
    have : asig = r := by injection hr
    subst this
    exact ⟨hfull, hco, hw⟩
  · intro dom asig hfull hsel hco hw hdom
    rw [backtrack_none (Bool.not_eq_true _ ▸ hfull) hsel]
    exact ⟨hdom, fun r hr => by cases hr⟩
  · intro dom asig hfull var hsel ih hco hw hdom
    rw [backtrack_sel (Bool.not_eq_true _ ▸ hfull) hsel]
    exact ih hw (fun w hw' => hdom var (ordenar_sub hw')) hdom
  · intro var asig dom h hw hvals hdom
    rw [probarValores_nil]
    exact ⟨hdom, fun r hr => by cases hr⟩
  · intro var asig dom h valor rest nueva hc dom1 hinf ih hw hvals hdom
    have hiw := inferencia_words (c := c) (W := c.words) dom
      ((vecinos c var).map (fun x => (x, var))) [] hdom (by simp)
    have hfst : (inferencia c dom ((vecinos c var).map (fun x => (x, var))) []).1 = dom1 := by
      rw [show inferencia c dom ((vecinos c var).map (fun x => (x, var))) [] =
        inferenciaDesde c dom nueva var from rfl, hinf]
    have hd1 : ∀ v, dom1 v ⊆ c.words := fun v => hfst ▸ hiw.1 v
    rw [probarValores_wipe hc hinf]
    exact ih hw (fun w hw' => hvals w (List.mem_cons_of_mem _ hw')) hd1
  · intro var asig dom h valor rest nueva hc dom1 inf hinf res ht ih1 hw hvals hdom
    have hiw := inferencia_words (c := c) (W := c.words) dom
      ((vecinos c var).map (fun x => (x, var))) [] hdom (by simp)
    have hfst : (inferencia c dom ((vecinos c var).map (fun x => (x, var))) []).1 = dom1 := by
      rw [show inferencia c dom ((vecinos c var).map (fun x => (x, var))) [] =
        inferenciaDesde c dom nueva var from rfl, hinf]
    have hsnd : (inferencia c dom ((vecinos c var).map (fun x => (x, var))) []).2 = some inf := by
      rw [show inferencia c dom ((vecinos c var).map (fun x => (x, var))) [] =
        inferenciaDesde c dom nueva var from rfl, hinf]
    have hd1 : ∀ v, dom1 v ⊆ c.words := fun v => hfst ▸ hiw.1 v
    have hinfw : ∀ p ∈ inf, p.2 ⊆ c.words := hiw.2 inf hsnd
    have hnw : ∀ p ∈ nueva, p.2 ∈ c.words := by
      intro p hp
      rcases List.mem_cons.mp hp with rfl | hp'
      · exact hvals valor (List.mem_cons_self _ _)
      · exact hw p hp'
    rw [probarValores_exito hc hinf ht]
    exact ih1 hc hnw (aplicar_words inf dom1 hd1 hinfw)
  · intro var asig dom h valor rest nueva hc dom1 inf hinf res hnt ih1 ih1' ih2 hw hvals hdom
    have hiw := inferencia_words (c := c) (W := c.words) dom
      ((vecinos c var).map (fun x => (x, var))) [] hdom (by simp)
    have hfst : (inferencia c dom ((vecinos c var).map (fun x => (x, var))) []).1 = dom1 := by
      rw [show inferencia c dom ((vecinos c var).map (fun x => (x, var))) [] =
        inferenciaDesde c dom nueva var from rfl, hinf]
    have hsnd : (inferencia c dom ((vecinos c var).map (fun x => (x, var))) []).2 = some inf := by
      rw [show inferencia c dom ((vecinos c var).map (fun x => (x, var))) [] =
        inferenciaDesde c dom nueva var from rfl, hinf]
    have hd1 : ∀ v, dom1 v ⊆ c.words := fun v => hfst ▸ hiw.1 v
    have hinfw : ∀ p ∈ inf, p.2 ⊆ c.words := hiw.2 inf hsnd
    have hnw : ∀ p ∈ nueva, p.2 ∈ c.words := by
      intro p hp
      rcases List.mem_cons.mp hp with rfl | hp'
      · exact hvals valor (List.mem_cons_self _ _)
      · exact hw p hp'
    have hres := ih1 hc hnw (aplicar_words inf dom1 hd1 hinfw)
    rw [probarValores_fallo hc hinf (Bool.not_eq_true _ ▸ hnt)]
    exact ih2 hw (fun w hw' => hvals w (List.mem_cons_of_mem _ hw'))
      (aplicar_words inf _ hres.1 hinfw)
  · intro var asig dom h valor rest nueva hc ih hw hvals hdom
    rw [probarValores_incons (Bool.not_eq_true _ ▸ hc)]
    exact ih hw (fun w hw' => hvals w (List.mem_cons_of_mem _ hw')) hdom

/-! Heuristic orderings: Python's `sorted`/`.sort` with a key is the
stable sort by the key's total preorder, realised by `insertionSort`. -/

theorem mrv_total (c : Crucigrama) (dom : Dominios) :
    ∀ u v, mrvRel c dom u v ∨ mrvRel c dom v u := by
  intro u v
  unfold mrvRel
  rcases Nat.lt_trichotomy (dom u).length (dom v).length with h | h | h
  · exact Or.inl (Or.inl h)
  · rcases Nat.le_total (vecinos c v).length (vecinos c u).length with h2 | h2
    · exact Or.inl (Or.inr ⟨h, h2⟩)
    · exact Or.inr (Or.inr ⟨h.symm, h2⟩)
  · exact Or.inr (Or.inl h)

theorem mrv_trans (c : Crucigrama) (dom : Dominios) :
    ∀ u v w, mrvRel c dom u v → mrvRel c dom v w → mrvRel c dom u w := by
  intro u v w huv hvw
  unfold mrvRel at huv hvw ⊢
  rcases huv with h1 | ⟨h1, h1'⟩ <;> rcases hvw with h2 | ⟨h2, h2'⟩
  · exact Or.inl (h1.trans h2)
  · exact Or.inl (h2 ▸ h1)
  · exact Or.inl (h1 ▸ h2)
  · exact Or.inr ⟨h1.trans h2, h2'.trans h1'⟩

theorem seleccionar_spec {c : Crucigrama} {dom : Dominios} {asig : Asignacion}
    (hne : ∃ v ∈ c.variables, v ∉ asig.map Prod.fst) :
    ∃ var, seleccionar_variable_no_asignada c dom asig = some var ∧
      var ∈ c.variables ∧ var ∉ asig.map Prod.fst ∧
      ∀ u ∈ c.variables, u ∉ asig.map Prod.fst →
        (dom var).length ≤ (dom u).length ∧
        ((dom u).length = (dom var).length →
          (vecinos c u).length ≤ (vecinos c var).length) := by
  obtain ⟨v0, hv0m, hv0n⟩ := hne
  have hv0 : v0 ∈ noAsignadas c asig := List.mem_filter.mpr ⟨hv0m, by simpa using hv0n⟩
  have hperm := List.perm_insertionSort (mrvRel c dom) (noAsignadas c asig)
  have hv0L : v0 ∈ List.insertionSort (mrvRel c dom) (noAsignadas c asig) :=
    hperm.mem_iff.mpr hv0
  obtain ⟨var, t, hLt⟩ : ∃ a t,
      List.insertionSort (mrvRel c dom) (noAsignadas c asig) = a :: t := by
    cases hL : List.insertionSort (mrvRel c dom) (noAsignadas c asig) with
    | nil => rw [hL] at hv0L; cases hv0L
    | cons a t => exact ⟨a, t, rfl⟩
  haveI : IsTotal Variable (mrvRel c dom) := ⟨mrv_total c dom⟩
  haveI : IsTrans Variable (mrvRel c dom) := ⟨mrv_trans c dom⟩
  have hsorted := List.sorted_insertionSort (mrvRel c dom) (noAsignadas c asig)
  rw [hLt] at hsorted
  have hvarN : var ∈ noAsignadas c asig := hperm.mem_iff.mp (by rw [hLt]; exact List.mem_cons_self _ _)
  have hvarF := List.mem_filter.mp hvarN
  refine ⟨var, ?_, hvarF.1, by simpa using hvarF.2, ?_⟩
  · unfold seleccionar_variable_no_asignada
    rw [hLt]
    rfl
  · intro u hum hun
    have huN : u ∈ noAsignadas c asig := List.mem_filter.mpr ⟨hum, by simpa using hun⟩
    have huL : u ∈ var :: t := by rw [← hLt]; exact hperm.mem_iff.mpr huN
    rcases List.mem_cons.mp huL with rfl | hut
    · exact ⟨le_refl _, fun _ => le_refl _⟩
    · have hrel := List.rel_of_sorted_cons hsorted u hut
      unfold mrvRel at hrel
      rcases hrel with h | ⟨h, h'⟩
      · refine ⟨le_of_lt h, ?_⟩
        intro he
        omega
      · exact ⟨le_of_eq h, fun _ => h'⟩

theorem conflictos_le_total (c : Crucigrama) (dom : Dominios) (asig : Asignacion)
    (var : Variable) :
    ∀ a b : Palabra, conflictos c dom asig var a ≤ conflictos c dom asig var b ∨
      conflictos c dom asig var b ≤ conflictos c dom asig var a := fun _ _ =>
  Nat.le_total _ _

open List in
theorem ordenar_stable (c : Crucigrama) (dom : Dominios) (var : Variable)
    (asig : Asignacion) (k : Nat) :
    (ordenar_valores_dominio c dom var asig).filter
        (fun w => conflictos c dom asig var w == k) =
      (dom var).filter (fun w => conflictos c dom asig var w == k) := by
  set q : Palabra → Bool := fun w => conflictos c dom asig var w == k with hq
  set r : Palabra → Palabra → Prop :=
    fun a b => conflictos c dom asig var a ≤ conflictos c dom asig var b with hr
  have hpair : ((dom var).filter q).Pairwise r := by
    apply List.pairwise_of_forall_mem_list
    intro a ha b hb
    have ha' := (List.mem_filter.mp ha).2
    have hb' := (List.mem_filter.mp hb).2
    rw [hq] at ha' hb'
    simp only [beq_iff_eq] at ha' hb'
    rw [hr]
    omega
  have hsub : (dom var).filter q <+ List.insertionSort r (dom var) :=
    List.sublist_insertionSort hpair (List.filter_sublist _)
  have hsub2 : (dom var).filter q <+ (List.insertionSort r (dom var)).filter q := by
    have h2 := hsub.filter q
    rwa [List.filter_filter, show (fun a => q a && q a) = q from by
      funext a; cases q a <;> rfl] at h2
  have hperm : (List.insertionSort r (dom var)).filter q ~ (dom var).filter q :=
    (List.perm_insertionSort r (dom var)).filter q
  have heq : (dom var).filter q = (List.insertionSort r (dom var)).filter q :=
    hsub2.eq_of_length hperm.length_eq.symm
  rw [ordenar_valores_dominio]
  exact heq.symm

/-! Reading the consistency predicate back as facts about the pairs. -/

theorem consistencia_all {c : Crucigrama} {asig : Asignacion}
    (h : consistencia c asig = true) :
    (∀ p ∈ asig, p.1.longitud = p.2.length) ∧
    (∀ p ∈ asig, ∀ q ∈ asig, q.1 ∈ vecinos c p.1 →
      ∀ i j, c.solapamientos p.1 q.1 = some (i, j) →
        p.2.getD i ' ' = q.2.getD j ' ') := by
  unfold consistencia at h
  rw [List.all_eq_true] at h
  constructor
  · intro p hp
    have h1 := h p hp
    rw [Bool.and_eq_true] at h1
    exact beq_iff_eq.mp h1.1
  · intro p hp q hq hqv i j hs
    have h0 := h p hp
    rw [Bool.and_eq_true] at h0
    have h1 := h0.2
    rw [List.all_eq_true] at h1
    have h2 := h1 q hq
    rw [if_pos hqv] at h2
    simp only [hs, beq_iff_eq] at h2
    exact h2

theorem consistencia_nodo_sub (c : Crucigrama) (dom : Dominios) (v : Variable) :
    consistencia_nodo c dom v ⊆ dom v := by
  unfold consistencia_nodo
  split
  · exact (List.filter_sublist _).subset
  · exact fun _ h => h

theorem consistencia_nil (c : Crucigrama) : consistencia c [] = true := rfl

/-- Any assignment produced by `solve` is complete, consistent and drawn
from the vocabulary. -/
theorem solve_sound {c : Crucigrama} {d : Dominios} {asig : Asignacion}
    (h : solve c = (d, some asig)) :
    asignacion_completa c asig = true ∧ consistencia c asig = true ∧
      ∀ p ∈ asig, p.2 ∈ c.words := by
  have hsub : ∀ v, (ac3 c (consistencia_nodo c (initialDominios c)) (seedArcs c)).1 v ⊆
      c.words := by
    intro v w hw
    exact consistencia_nodo_sub c (initialDominios c) v
      (ac3_sub (consistencia_nodo c (initialDominios c)) (seedArcs c) v hw)
  have hB := backtrack_sound c
    ((ac3 c (consistencia_nodo c (initialDominios c)) (seedArcs c)).1) []
    (consistencia_nil c) (by intro p hp; cases hp) hsub
  have h' : (backtrack c
      ((ac3 c (consistencia_nodo c (initialDominios c)) (seedArcs c)).1) []).2 =
      some asig := by
    rw [show backtrack c
        ((ac3 c (consistencia_nodo c (initialDominios c)) (seedArcs c)).1) [] =
      solve c from rfl, h]
  exact hB.2 asig h'

/-! Concrete instances used to run the code. -/

def wCAT : Palabra := ['c', 'a', 't']
def wDOG : Palabra := ['d', 'o', 'g']
def wABC : Palabra := ['a', 'b', 'c']
def wXBC : Palabra := ['x', 'b', 'c']
def wXXY : Palabra := ['x', 'x', 'y']
def wZZZ : Palabra := ['z', 'z', 'z']

def u1 : Variable := ⟨0, 0, 3, Direccion.derecha⟩

/-- A one-slot puzzle with vocabulary cat/dog (the spec's trivial
scenario). -/
def cUno : Crucigrama where
  «variables» := [u1]
  words := [wCAT, wDOG]
  solapamientos := fun _ _ => none
  solap_symm := by intro x y i j h; cases h
  solap_irrefl := fun _ => rfl
  solap_var := by intro x y p h; cases h
  solap_lt := by intro x y i j h; cases h

def vA : Variable := ⟨0, 0, 3, Direccion.derecha⟩
def vB : Variable := ⟨0, 0, 3, Direccion.abajo⟩

def solapDos : Variable → Variable → Option (Nat × Nat) := fun u v =>
  if (u = vA ∧ v = vB) ∨ (u = vB ∧ v = vA) then some (0, 0) else none

theorem solapDos_symm : ∀ x y i j, solapDos x y = some (i, j) → solapDos y x = some (j, i) := by
  intro x y i j h
  unfold solapDos at h ⊢
  by_cases hc : (x = vA ∧ y = vB) ∨ (x = vB ∧ y = vA)
  · rw [if_pos hc] at h
    simp only [Option.some.injEq, Prod.mk.injEq] at h
    obtain ⟨rfl, rfl⟩ := h
    rcases hc with ⟨rfl, rfl⟩ | ⟨rfl, rfl⟩ <;> decide
  · rw [if_neg hc] at h
    cases h

theorem solapDos_irrefl : ∀ x, solapDos x x = none := by
  intro x
  unfold solapDos
  rw [if_neg]
  rintro (⟨rfl, h2⟩ | ⟨rfl, h2⟩) <;> exact absurd h2 (by decide)

/-- Two length-3 slots crossing at their first letters. -/
def cDos : Crucigrama where
  «variables» := [vA, vB]
  words := [wABC, wXBC, wXXY, wZZZ]
  solapamientos := solapDos
  solap_symm := solapDos_symm
  solap_irrefl := solapDos_irrefl
  solap_var := by
    intro x y p h
    unfold solapDos at h
    by_cases hc : (x = vA ∧ y = vB) ∨ (x = vB ∧ y = vA)
    · rcases hc with ⟨rfl, rfl⟩ | ⟨rfl, rfl⟩ <;> exact ⟨by decide, by decide⟩
    · rw [if_neg hc] at h
      cases h
  solap_lt := by
    intro x y i j h
    unfold solapDos at h
    by_cases hc : (x = vA ∧ y = vB) ∨ (x = vB ∧ y = vA)
    · rw [if_pos hc] at h
      simp only [Option.some.injEq, Prod.mk.injEq] at h
      obtain ⟨rfl, rfl⟩ := h
      rcases hc with ⟨rfl, rfl⟩ | ⟨rfl, rfl⟩ <;> exact ⟨by decide, by decide⟩
    · rw [if_neg hc] at h
      cases h

/-- A store in which trying `vA := "abc"` starts a branch that fails. -/
def domDos : Dominios := fun v =>
  if v = vA then [wABC, wXBC] else if v = vB then [wXXY, wZZZ] else []

/-- A store in which inference after `vA := "abc"` wipes `vB` out. -/
def domWipe : Dominios := fun v =>
  if v = vA then [wABC] else if v = vB then [wXXY] else []

/-- The candidate assignment `vA := "abc"`. -/
def asigUno : Asignacion := [(vA, wABC)]

/-- What the failing branch's inference records: `vB`'s post-revision
domain. -/
def infC1 : Inferencias := [(vB, [wXXY])]

/-- The store as the source leaves it after that inference. -/
def domPost : Dominios := (inferenciaDesde cDos domDos asigUno vA).1

theorem vecinosA : (vecinos cDos vA).map (fun x => (x, vA)) = [(vB, vA)] := by decide

theorem inf_run_C1 : inferenciaDesde cDos domDos asigUno vA =
    ((revisar cDos domDos vB vA).1, some [(vB, (revisar cDos domDos vB vA).1 vB)]) := by
  show inferencia cDos domDos ((vecinos cDos vA).map fun x => (x, vA)) [] = _
  rw [vecinosA, inferencia_rec (by decide) (by decide)]
  rw [show (((vecinos cDos vB).filter (fun z => decide (z ≠ vA))).map (fun z => (z, vB)) ++
    ([] : List (Variable × Variable))) = [] from by decide]
  rw [inferencia_nil, List.nil_append]

theorem domPost_eq : domPost = (revisar cDos domDos vB vA).1 := by
  rw [show domPost = (inferenciaDesde cDos domDos asigUno vA).1 from rfl, inf_run_C1]

theorem branch_run_C1 :
    backtrack cDos (aplicarInferencias (revisar cDos domDos vB vA).1 infC1) asigUno =
      (aplicarInferencias (revisar cDos domDos vB vA).1 infC1, none) := by
  rw [backtrack_sel (by decide) (show seleccionar_variable_no_asignada cDos
    (aplicarInferencias (revisar cDos domDos vB vA).1 infC1) asigUno = some vB from by decide)]
  rw [show ordenar_valores_dominio cDos
    (aplicarInferencias (revisar cDos domDos vB vA).1 infC1) vB asigUno = [wXXY] from by decide]
  rw [probarValores_incons (by decide), probarValores_nil]

/-- C1.  Backtrack reversibility fails on the code: after the failed
branch for `vA := "abc"`, whose inference touched `vB`, the "undo" loop
writes back the recorded post-inference copy `["xxy"]`, not the
pre-branch domain `["xxy", "zzz"]` — the domain of `vB` is not restored.
(The spec's claim is the correct backtracking contract; the code records
the domains after revision, so its undo loop cannot restore the
pre-inference state.) -/
theorem C1_backtrack_no_restaura :
    consistencia cDos asigUno = true ∧
    inferenciaDesde cDos domDos asigUno vA = (domPost, some infC1) ∧
    (backtrack cDos (aplicarInferencias domPost infC1) asigUno).2 = none ∧
    aplicarInferencias
        (backtrack cDos (aplicarInferencias domPost infC1) asigUno).1 infC1 vB = [wXXY] ∧
    domDos vB = [wXXY, wZZZ] := by
  refine ⟨by decide, ?_, ?_, ?_, by decide⟩
  · rw [inf_run_C1, domPost_eq]
    rw [show (revisar cDos domDos vB vA).1 vB = [wXXY] from by decide]
    rfl
  · rw [domPost_eq, branch_run_C1]
  · rw [domPost_eq, branch_run_C1]
    decide

/-- C2.  Wipeout is not atomic in the code: when inference detects an
empty domain it returns `None`, but the revisions already performed have
mutated the shared store in place — here `vB`'s domain is left empty
(`[]`) although it held `["xxy"]` before the call, and no caller restores
it. -/
theorem C2_inferencia_muta :
    (inferenciaDesde cDos domWipe asigUno vA).2 = none ∧
    (inferenciaDesde cDos domWipe asigUno vA).1 vB = [] ∧
    domWipe vB = [wXXY] := by
  have hrun : inferenciaDesde cDos domWipe asigUno vA =
      ((revisar cDos domWipe vB vA).1, none) := by
    show inferencia cDos domWipe ((vecinos cDos vA).map fun x => (x, vA)) [] = _
    rw [vecinosA]
    exact inferencia_wipe (by decide) (by decide)
  refine ⟨by rw [hrun], by rw [hrun]; decide, by decide⟩

/-! Runs of `solve` on the trivial one-slot scenario. -/

/-- The store after node consistency on the one-slot puzzle. -/
def d1U : Dominios := consistencia_nodo cUno (initialDominios cUno)

theorem solve_run_Uno : solve cUno = (d1U, some [(u1, wCAT)]) := by
  show backtrack cUno (ac3 cUno d1U (seedArcs cUno)).1 [] = _
  rw [show seedArcs cUno = [] from by decide, ac3_nil]
  show backtrack cUno d1U [] = _
  rw [backtrack_sel (by decide)
    (show seleccionar_variable_no_asignada cUno d1U [] = some u1 from by decide)]
  rw [show ordenar_valores_dominio cUno d1U u1 [] = [wCAT, wDOG] from by decide]
  have hinf : inferenciaDesde cUno d1U [(u1, wCAT)] u1 = (d1U, some []) := by
    show inferencia cUno d1U ((vecinos cUno u1).map fun x => (x, u1)) [] = _
    rw [show (vecinos cUno u1).map (fun x => (x, u1)) = [] from by decide]
    exact inferencia_nil _ _ _
  have hbt2 : backtrack cUno (aplicarInferencias d1U []) [(u1, wCAT)] =
      (aplicarInferencias d1U [], some [(u1, wCAT)]) := backtrack_full (by decide)
  rw [probarValores_exito (by decide) hinf (by rw [hbt2]; rfl), hbt2]
  rfl

/-- C3.  Solution validity: any assignment returned by `solve` is complete
(its keys are exactly the variables), every assigned word has its slot's
length, and any two assigned crossing variables agree on the shared
letter; the overlap offsets are within both words, so the `getD` reads
are the words' actual characters. -/
theorem C3_solve_valido (c : Crucigrama) (d : Dominios) (asig : Asignacion)
    (h : solve c = (d, some asig)) :
    (∀ v, v ∈ asig.map Prod.fst ↔ v ∈ c.variables) ∧
    (∀ p ∈ asig, p.1.longitud = p.2.length) ∧
    (∀ p ∈ asig, ∀ q ∈ asig, ∀ i j, c.solapamientos p.1 q.1 = some (i, j) →
      i < p.2.length ∧ j < q.2.length ∧ p.2.getD i ' ' = q.2.getD j ' ') := by
  obtain ⟨hfull, hcons, _⟩ := solve_sound h
  have hkeys : (asig.map Prod.fst).toFinset = c.variables.toFinset :=
    of_decide_eq_true hfull
  have hmem : ∀ v, v ∈ asig.map Prod.fst ↔ v ∈ c.variables := by
    intro v
    rw [← List.mem_toFinset, hkeys, List.mem_toFinset]
  obtain ⟨hlen, hpares⟩ := consistencia_all hcons
  refine ⟨hmem, hlen, ?_⟩
  intro p hp q hq i j hs
  have hq1 : q.1 ∈ c.variables := (hmem q.1).mp (List.mem_map.mpr ⟨q, hq, rfl⟩)
  have hqv : q.1 ∈ vecinos c p.1 :=
    mem_vecinos.mpr ⟨hq1, Ne.symm (solap_ne hs), by rw [hs]; rfl⟩
  have hlt := c.solap_lt _ _ _ _ hs
  exact ⟨by rw [← hlen p hp]; exact hlt.1, by rw [← hlen q hq]; exact hlt.2,
    hpares p hp q hq hqv i j hs⟩

theorem C3_witness :
    (∀ v, v ∈ ([(u1, wCAT)] : Asignacion).map Prod.fst ↔ v ∈ cUno.variables) ∧
    (∀ p ∈ ([(u1, wCAT)] : Asignacion), p.1.longitud = p.2.length) ∧
    (∀ p ∈ ([(u1, wCAT)] : Asignacion), ∀ q ∈ ([(u1, wCAT)] : Asignacion),
      ∀ i j, cUno.solapamientos p.1 q.1 = some (i, j) →
        i < p.2.length ∧ j < q.2.length ∧ p.2.getD i ' ' = q.2.getD j ' ') :=
  C3_solve_valido cUno d1U [(u1, wCAT)] solve_run_Uno

/-- C10.  Vocabulary membership: every word of any assignment returned by
`solve` is a word of the input vocabulary (domains start as vocabulary
copies, only shrink or are reset to recorded shrunken copies, and values
are always drawn from the current domain). -/
theorem C10_solve_vocabulario (c : Crucigrama) (d : Dominios) (asig : Asignacion)
    (h : solve c = (d, some asig)) : ∀ p ∈ asig, p.2 ∈ c.words :=
  (solve_sound h).2.2

theorem C10_witness : wCAT ∈ cUno.words :=
  C10_solve_vocabulario cUno d1U [(u1, wCAT)] solve_run_Uno (u1, wCAT)
    (List.mem_cons_self _ _)

/-- An empty domain for the one-slot puzzle: `ac3()` never revises
anything (the slot has no neighbors), so it returns `true` although the
domain is empty. -/
def domVacio : Dominios := fun _ => []

/-- C4 counterexample: `ac3()` (with its default seeding) returns `true`
on a store in which a variable's domain is already empty — "no empty
domain on a true return" is false as stated. -/
theorem C4_counterexample :
    ac3 cUno domVacio (seedArcs cUno) = (domVacio, true) ∧
    u1 ∈ cUno.variables ∧ domVacio u1 = [] := by
  refine ⟨?_, by decide, rfl⟩
  rw [show seedArcs cUno = [] from by decide]
  exact ac3_nil _ _

/-- C4 (amended).  If `ac3()` returns `true` then the store is fully
arc-consistent — every remaining word of any overlapping variable has a
matching partner — and every domain that was nonempty when `ac3` started
is still nonempty; moreover whenever a revision empties a domain during
the run, `ac3` returns `false` at once. -/
theorem C4_ac3_contrato (c : Crucigrama) :
    (∀ dom dom', ac3 c dom (seedArcs c) = (dom', true) →
      (∀ x y i j, c.solapamientos x y = some (i, j) →
        ∀ wx ∈ dom' x, ∃ wy ∈ dom' y, wx.getD i ' ' = wy.getD j ' ') ∧
      (∀ v, dom v ≠ [] → dom' v ≠ [])) ∧
    (∀ dom (x y : Variable) rest, (revisar c dom x y).2 = true →
      (revisar c dom x y).1 x = [] →
      ac3 c dom ((x, y) :: rest) = ((revisar c dom x y).1, false)) := by
  constructor
  · intro dom dom' h
    exact ⟨fun x y i j hs =>
        ac3_true_soporte dom (seedArcs c) dom' (invAC_seed c dom) h x y i j hs,
      fun v => ac3_true_ne dom (seedArcs c) dom' h v⟩
  · intro dom x y rest h1 h2
    exact ac3_wipe h1 (by rw [h2]; rfl)

theorem C4_witness :
    ((∀ x y i j, cUno.solapamientos x y = some (i, j) →
        ∀ wx ∈ initialDominios cUno x, ∃ wy ∈ initialDominios cUno y,
          wx.getD i ' ' = wy.getD j ' ') ∧
      (∀ v, initialDominios cUno v ≠ [] → initialDominios cUno v ≠ [])) ∧
    ac3 cDos domWipe [(vB, vA)] = ((revisar cDos domWipe vB vA).1, false) := by
  constructor
  · exact (C4_ac3_contrato cUno).1 (initialDominios cUno) (initialDominios cUno)
      (by rw [show seedArcs cUno = [] from by decide]; exact ac3_nil _ _)
  · exact (C4_ac3_contrato cDos).2 domWipe vB vA [] (by decide) (by decide)

/-- C5.  `revisar` postcondition: with no overlap it changes nothing and
returns `false`; with overlap `(i, j)` (words long enough to index), the
revised domain of `x` keeps exactly the words with a partner in the
current domain of `y`, no other variable's domain changes, and the flag
is `true` iff at least one word was removed. -/
theorem C5_revisar_contrato (c : Crucigrama) (dom : Dominios) (x y : Variable) :
    (c.solapamientos x y = none → revisar c dom x y = (dom, false)) ∧
    (∀ i j, c.solapamientos x y = some (i, j) →
      (∀ w ∈ dom x, i < w.length) → (∀ w ∈ dom y, j < w.length) →
      (∀ w, w ∈ (revisar c dom x y).1 x ↔
        w ∈ dom x ∧ ∃ wy ∈ dom y, w.getD i ' ' = wy.getD j ' ') ∧
      (∀ v, v ≠ x → (revisar c dom x y).1 v = dom v) ∧
      ((revisar c dom x y).2 = true ↔
        ∃ w ∈ dom x, w ∉ (revisar c dom x y).1 x)) := by
  constructor
  · intro h
    unfold revisar
    rw [h]
  · intro i j hs _ _
    refine ⟨fun w => revisar_mem hs, fun v hv => revisar_ne hv, ?_⟩
    simp only [revisar, hs, Function.update_same, decide_eq_true_eq]
    constructor
    · intro ht
      by_contra hno
      push_neg at hno
      exact ht (by
        rw [List.filter_eq_self.mpr fun a ha => (List.mem_filter.mp (hno a ha)).2])
    · rintro ⟨w, hw, hnw⟩ hlen
      rw [(List.filter_sublist _).eq_of_length hlen] at hnw
      exact hnw hw

theorem C5_witness :
    revisar cDos domDos vA vA = (domDos, false) ∧
    ((∀ w, w ∈ (revisar cDos domDos vB vA).1 vB ↔
        w ∈ domDos vB ∧ ∃ wy ∈ domDos vA, w.getD 0 ' ' = wy.getD 0 ' ') ∧
      (∀ v, v ≠ vB → (revisar cDos domDos vB vA).1 v = domDos v) ∧
      ((revisar cDos domDos vB vA).2 = true ↔
        ∃ w ∈ domDos vB, w ∉ (revisar cDos domDos vB vA).1 vB)) :=
  ⟨(C5_revisar_contrato cDos domDos vA vA).1 (by decide),
   (C5_revisar_contrato cDos domDos vB vA).2 0 0 (by decide) (by decide) (by decide)⟩

/-- C6.  Node consistency: for a variable of the puzzle, the new domain is
exactly the old one filtered to the words of the right length — a word
remains iff it was there and its length equals the variable's length. -/
theorem C6_consistencia_nodo (c : Crucigrama) (dom : Dominios) (v : Variable)
    (hv : v ∈ c.variables) :
    consistencia_nodo c dom v = (dom v).filter (fun w => w.length == v.longitud) ∧
    ∀ w, w ∈ consistencia_nodo c dom v ↔ w ∈ dom v ∧ w.length = v.longitud := by
  have he : consistencia_nodo c dom v =
      (dom v).filter (fun w => w.length == v.longitud) := by
    unfold consistencia_nodo
    rw [if_pos hv]
  refine ⟨he, ?_⟩
  intro w
  rw [he]
  simp [List.mem_filter]

theorem C6_witness :
    consistencia_nodo cUno (initialDominios cUno) u1 =
      (initialDominios cUno u1).filter (fun w => w.length == u1.longitud) ∧
    ∀ w, w ∈ consistencia_nodo cUno (initialDominios cUno) u1 ↔
      w ∈ initialDominios cUno u1 ∧ w.length = u1.longitud :=
  C6_consistencia_nodo cUno (initialDominios cUno) u1 (by decide)

/-- C7.  Termination of `ac3`: a revision that reports `true` strictly
shrinks the revised domain; every iteration of the loop strictly
decreases the finite measure `medidaAC` (total remaining domain size,
weighted, plus pending arcs) — the measure under which the recursion is
accepted — and the loop only ever shrinks domains. -/
theorem C7_ac3_termina (c : Crucigrama) :
    (∀ dom (x y : Variable), (revisar c dom x y).2 = true →
      ((revisar c dom x y).1 x).length < (dom x).length) ∧
    (∀ dom (x y : Variable) rest, (revisar c dom x y).2 = true →
      medidaAC c (revisar c dom x y).1
          (((vecinos c x).filter (fun z => decide (z ≠ y))).map (fun z => (z, x)) ++ rest) <
        medidaAC c dom ((x, y) :: rest)) ∧
    (∀ dom (x y : Variable) rest, (revisar c dom x y).2 = false →
      medidaAC c (revisar c dom x y).1 rest < medidaAC c dom ((x, y) :: rest)) ∧
    (∀ dom arcs v, (ac3 c dom arcs).1 v ⊆ dom v) :=
  ⟨fun _ _ _ h => revisar_true_lt h,
   fun _ _ _ _ h => medida_dec_true h,
   fun _ _ _ _ h => medida_dec_false h,
   fun dom arcs v => ac3_sub dom arcs v⟩

theorem C7_witness :
    ((revisar cDos domWipe vB vA).1 vB).length < (domWipe vB).length ∧
    medidaAC cDos (revisar cDos domWipe vB vA).1
        (((vecinos cDos vB).filter (fun z => decide (z ≠ vA))).map (fun z => (z, vB)) ++ []) <
      medidaAC cDos domWipe ((vB, vA) :: []) ∧
    medidaAC cUno (revisar cUno (initialDominios cUno) u1 u1).1 [] <
      medidaAC cUno (initialDominios cUno) ((u1, u1) :: []) ∧
    (ac3 cUno (initialDominios cUno) []).1 u1 ⊆ initialDominios cUno u1 :=
  ⟨(C7_ac3_termina cDos).1 _ _ _ (by decide),
   (C7_ac3_termina cDos).2.1 _ _ _ _ (by decide),
   (C7_ac3_termina cUno).2.2.1 _ _ _ _ (by decide),
   (C7_ac3_termina cUno).2.2.2 _ _ _⟩

/-- C8.  Variable selection: whenever some variable is unassigned, the
heuristic returns an unassigned variable whose remaining-domain size is
minimal, and of maximal degree among those tied on domain size, reading
the current domains. -/
theorem C8_seleccionar (c : Crucigrama) (dom : Dominios) (asig : Asignacion)
    (hne : ∃ v ∈ c.variables, v ∉ asig.map Prod.fst) :
    ∃ var, seleccionar_variable_no_asignada c dom asig = some var ∧
      var ∈ c.variables ∧ var ∉ asig.map Prod.fst ∧
      ∀ u ∈ c.variables, u ∉ asig.map Prod.fst →
        (dom var).length ≤ (dom u).length ∧
        ((dom u).length = (dom var).length →
          (vecinos c u).length ≤ (vecinos c var).length) :=
  seleccionar_spec hne

theorem C8_witness :
    ∃ var, seleccionar_variable_no_asignada cDos domDos [] = some var ∧
      var ∈ cDos.variables ∧ var ∉ ([] : Asignacion).map Prod.fst ∧
      ∀ u ∈ cDos.variables, u ∉ ([] : Asignacion).map Prod.fst →
        (domDos var).length ≤ (domDos u).length ∧
        ((domDos u).length = (domDos var).length →
          (vecinos cDos u).length ≤ (vecinos cDos var).length) :=
  C8_seleccionar cDos domDos [] ⟨vA, by decide, by decide⟩

/-- C9.  Value ordering: the result is a permutation of the domain of
`var`, it is sorted by ascending conflict count, and within each conflict
count the original domain order is preserved (stability). -/
theorem C9_ordenar (c : Crucigrama) (dom : Dominios) (var : Variable)
    (asig : Asignacion) :
    List.Perm (ordenar_valores_dominio c dom var asig) (dom var) ∧
    (ordenar_valores_dominio c dom var asig).Pairwise
      (fun a b => conflictos c dom asig var a ≤ conflictos c dom asig var b) ∧
    ∀ k, (ordenar_valores_dominio c dom var asig).filter
        (fun w => conflictos c dom asig var w == k) =
      (dom var).filter (fun w => conflictos c dom asig var w == k) := by
  refine ⟨List.perm_insertionSort _ _, ?_, fun k => ordenar_stable c dom var asig k⟩
  haveI : IsTotal Palabra
      (fun a b => conflictos c dom asig var a ≤ conflictos c dom asig var b) :=
    ⟨fun _ _ => Nat.le_total _ _⟩
  haveI : IsTrans Palabra
      (fun a b => conflictos c dom asig var a ≤ conflictos c dom asig var b) :=
    ⟨fun _ _ _ hab hbc => le_trans hab hbc⟩
  exact List.sorted_insertionSort _ _
